import Mathlib

/-!
Verification of the hierarchical ordered-list engine of the
`figjam-widget-website-navigation` widget (`src/widget-src/code.tsx`; the file
`src/unnamed/part_000` is a near-identical variant of the same engine).

The widget keeps a flat, totally ordered list of node ids (`itemIds`, the
"Order"), a keyed record store (`items`, a synced map from id to `NavItem`),
and an optional selection (`selectedId`).  The embedding below translates the
engine's functions directly from the TypeScript source:

* pure helpers (`getChildren`, `canMoveUp`, `canMoveDown`, `generateId`)
  become total Lean functions;
* the unguarded recursions (`getAllDescendants`, `isHidden`) become
  fuel-indexed functions returning `Option` (`none` models divergence /
  running out of fuel at every depth);
* the mutators (`addItem`, `deleteItem`, `moveUp`, `moveDown`,
  `toggleCollapsed`, `updateItem`) become state transformers; the ones that
  call `getAllDescendants` are fuel-indexed and return `Option WState`.
* `addItem` takes the freshly generated id as an explicit argument (the
  outcome of the `generateId` random generator); `generateId` itself is
  modelled as a function of the random draw.

JavaScript peculiarities that the source relies on are modelled faithfully:
`Array.prototype.indexOf` returns `-1` when the element is absent
(`jsIndexOf`), `Array.prototype.splice` clamps negative/overflowing start
indices (`spliceInsert`), and `if (parentId)` / `!item.parentId` test
string truthiness, so the empty string behaves like `null` (`truthy`).
-/

/-- The `level` tag of a `NavItem`: `"primary" | "secondary" | "tertiary"`. -/
inductive Level where
  | primary
  | secondary
  | tertiary
deriving DecidableEq, Repr

/-- The `NavItem` interface of `code.tsx` (the `part_000` variant lacks
`pageTitle`/`url`; they are opaque payload either way). -/
structure NavItem where
  id : String
  label : String
  pageTitle : String
  url : String
  level : Level
  parentId : Option String
  collapsed : Bool
deriving DecidableEq, Repr

/-- The engine state: the synced `itemIds` order, the synced `items` record
store (modelled as a function from id to optional record), and `selectedId`.
The remaining synced state of the widget (`initialized`, `hostname`,
`cardColor`) does not interact with the list engine and is omitted. -/
structure WState where
  order : List String
  items : String → Option NavItem
  selected : Option String

/-- JavaScript truthiness of a `string | null` value: `null` and `""` are
falsy. Used for `if (parentId)` and `!item.parentId` in the source. -/
def truthy : Option String → Bool
  | none => false
  | some s => s != ""

/-- `Array.prototype.indexOf`: first index of `x` in `l`, `-1` if absent. -/
def jsIndexOf (l : List String) (x : String) : Int :=
  if x ∈ l then (l.indexOf x : Int) else -1

/-- `l.splice(i, 0, ...xs)`: insert `xs` at index `i`, where a negative `i`
counts from the end (clamped at `0`) and an `i` beyond the length appends. -/
def spliceInsert (l : List String) (i : Int) (xs : List String) : List String :=
  let n : Nat := if i < 0 then ((l.length : Int) + i).toNat else min i.toNat l.length
  l.take n ++ xs ++ l.drop n

/-- `generateId` as a function of the random draw
`n = Math.floor(Math.random() * 1_000_000)` (so `n < 1000000`):
`("00000" + n.toString()).slice(-6)`. -/
def generateId (n : Nat) : String :=
  let s := "00000" ++ toString n
  s.drop (s.length - 6)

/-- `getChildren(parentId)`: ids in Order whose live record has
`parentId === parentId`. -/
def getChildren (st : WState) (parentId : String) : List String :=
  st.order.filter fun i =>
    match st.items i with
    | some item => item.parentId == some parentId
    | none => false

/-- The sequential `forEach`/`push` loop of `getAllDescendants`: collect the
recursive descendant lists of all children, failing (diverging) as soon as
one recursive call fails. -/
def collectDesc (g : String → Option (List String)) : List String → Option (List String)
  | [] => some []
  | c :: cs =>
    match g c, collectDesc g cs with
    | some d, some rest => some (d ++ rest)
    | _, _ => none

/-- `getAllDescendants(parentId)`, fuel-indexed.  The source pushes the direct
children first and then, child by child, each child's full recursive
descendant list, so the result is `children ++ desc c₁ ++ desc c₂ ++ ...`
(not a pre-order traversal).  The recursion has no cycle guard; `none` means
the recursion does not bottom out within `fuel` nested calls. -/
def getAllDescendantsF : Nat → WState → String → Option (List String)
  | 0, _, _ => none
  | fuel+1, st, parentId =>
    let children := getChildren st parentId
    (collectDesc (getAllDescendantsF fuel st) children).map fun ds => children ++ ds

/-- `addItem(level, parentId)` with the generated id passed explicitly.
The record is stored first; then, if `parentId` is truthy, the id is spliced
in at `itemIds.indexOf(parentId) + getChildren(parentId).length + 1`
(the count of **direct** children only), else appended; the selection is
set to the new id unconditionally. -/
def addItem (st : WState) (level : Level) (parentId : Option String) (newId : String) : WState :=
  let newItem : NavItem :=
    { id := newId, label := "", pageTitle := "", url := "",
      level := level, parentId := parentId, collapsed := false }
  let st1 : WState := { st with items := fun k => if k = newId then some newItem else st.items k }
  if truthy parentId then
    let p := parentId.getD ""
    let parentIndex : Int := jsIndexOf st1.order p
    let children := getChildren st1 p
    let insertIndex : Int := parentIndex + children.length + 1
    { st1 with order := spliceInsert st1.order insertIndex [newId], selected := some newId }
  else
    { st1 with order := st1.order ++ [newId], selected := some newId }

/-- `deleteItem(id)`: delete `id :: getAllDescendants(id)` from the store and
filter them out of Order; clear the selection when
`selectedId === id || (selectedId && toDelete.includes(selectedId))`.
Fuel-indexed through `getAllDescendantsF`. -/
def deleteItemF (fuel : Nat) (st : WState) (id : String) : Option WState :=
  (getAllDescendantsF fuel st id).map fun children =>
    let toDelete := id :: children
    let clear : Bool :=
      match st.selected with
      | none => false
      | some s => (s == id) || ((s != "") && toDelete.contains s)
    { order := st.order.filter fun itemId => !(toDelete.contains itemId),
      items := fun k => if toDelete.contains k then none else st.items k,
      selected := if clear then none else st.selected }

/-- The sibling filter shared by `moveUp`/`moveDown`/`canMoveUp`/`canMoveDown`:
ids in Order whose live record has the same `parentId` and the same `level`
as `item`. -/
def siblingsOf (st : WState) (item : NavItem) : List String :=
  st.order.filter fun sibId =>
    match st.items sibId with
    | some sib => sib.parentId == item.parentId && sib.level == item.level
    | none => false

/-- `moveUp(id)`: no-op when the record is missing or
`siblings.indexOf(id) <= 0`; otherwise remove `[id, ...descendants]` from
Order and splice it back in at `newIds.indexOf(prevSiblingId)`. -/
def moveUpF (fuel : Nat) (st : WState) (id : String) : Option WState :=
  match st.items id with
  | none => some st
  | some item =>
    let siblings := siblingsOf st item
    let currentIndex : Int := jsIndexOf siblings id
    if currentIndex ≤ 0 then some st
    else
      let prevSiblingId := siblings.getD (currentIndex - 1).toNat ""
      (getAllDescendantsF fuel st id).map fun itemChildren =>
        let itemBlock := id :: itemChildren
        let newIds := st.order.filter fun i => !(itemBlock.contains i)
        let insertIndex : Int := jsIndexOf newIds prevSiblingId
        { st with order := spliceInsert newIds insertIndex itemBlock }

/-- `moveDown(id)`: no-op when the record is missing or
`siblings.indexOf(id) >= siblings.length - 1`; otherwise remove
`[id, ...descendants]` from Order and splice it back in at
`newIds.indexOf(nextSiblingId) + nextBlock.length`. -/
def moveDownF (fuel : Nat) (st : WState) (id : String) : Option WState :=
  match st.items id with
  | none => some st
  | some item =>
    let siblings := siblingsOf st item
    let currentIndex : Int := jsIndexOf siblings id
    if currentIndex ≥ (siblings.length : Int) - 1 then some st
    else
      let nextSiblingId := siblings.getD (currentIndex + 1).toNat ""
      (getAllDescendantsF fuel st id).bind fun itemChildren =>
        (getAllDescendantsF fuel st nextSiblingId).map fun nextChildren =>
          let itemBlock := id :: itemChildren
          let nextBlock := nextSiblingId :: nextChildren
          let newIds := st.order.filter fun i => !(itemBlock.contains i)
          let insertIndex : Int := jsIndexOf newIds nextSiblingId + nextBlock.length
          { st with order := spliceInsert newIds insertIndex itemBlock }

/-- `toggleCollapsed(id)`: flip `collapsed` on the record in place. -/
def toggleCollapsed (st : WState) (id : String) : WState :=
  match st.items id with
  | none => st
  | some item =>
    { st with items := fun k =>
        if k = id then some { item with collapsed := !item.collapsed } else st.items k }

/-- The payload fields updated through `updateItem` at the widget's call
sites (`label`, `pageTitle`, `url`). -/
inductive PayloadField where
  | label
  | pageTitle
  | url
deriving DecidableEq, Repr

/-- `updateItem(id, field, value)`: merge one payload field into the record. -/
def updateItem (st : WState) (id : String) (field : PayloadField) (value : String) : WState :=
  match st.items id with
  | none => st
  | some item =>
    let item' :=
      match field with
      | .label => { item with label := value }
      | .pageTitle => { item with pageTitle := value }
      | .url => { item with url := value }
    { st with items := fun k => if k = id then some item' else st.items k }

/-- `isHidden(id)`, fuel-indexed: walk the `parentId` chain; a missing record,
falsy `parentId`, or missing parent record ends the walk with `false`; a
collapsed parent returns `true`; otherwise recurse on the parent.  The
recursion has no cycle guard; `none` models divergence. -/
def isHiddenF : Nat → WState → String → Option Bool
  | 0, _, _ => none
  | fuel+1, st, id =>
    match st.items id with
    | none => some false
    | some item =>
      if truthy item.parentId then
        let p := item.parentId.getD ""
        match st.items p with
        | none => some false
        | some parent =>
          if parent.collapsed then some true
          else isHiddenF fuel st p
      else some false

/-- `canMoveUp(id)`: `siblings.indexOf(id) > 0` (false for a missing record). -/
def canMoveUp (st : WState) (id : String) : Bool :=
  match st.items id with
  | none => false
  | some item => decide ((0 : Int) < jsIndexOf (siblingsOf st item) id)

/-- `canMoveDown(id)`: `siblings.indexOf(id) < siblings.length - 1`
(false for a missing record). -/
def canMoveDown (st : WState) (id : String) : Bool :=
  match st.items id with
  | none => false
  | some item =>
    let siblings := siblingsOf st item
    decide (jsIndexOf siblings id < (siblings.length : Int) - 1)

/-- The state set up by the widget's initialization effect: the single
primary item `"000001" / "Home"`, no selection. -/
def initialState : WState :=
  { order := ["000001"],
    items := fun k =>
      if k = "000001" then
        some { id := "000001", label := "Home", pageTitle := "", url := "/",
               level := .primary, parentId := none, collapsed := false }
      else none,
    selected := none }

/-- A record store from a list of records, keyed by their `id` field
(mirrors a populated synced map). -/
def mkStore (l : List NavItem) : String → Option NavItem :=
  fun k => l.find? fun it => it.id == k

/-- A bare `NavItem` with empty payload, as `addItem` creates them. -/
def mkItem (id : String) (level : Level) (parentId : Option String) : NavItem :=
  { id := id, label := "", pageTitle := "", url := "",
    level := level, parentId := parentId, collapsed := false }

/-!  ## Specification-side notions

`Child`/`Descendant` capture the engine's descendant notion (recursive child
lookup: a child is a live node, present in Order, whose stored `parentId` is
the parent). `ContigInv` is the spec's contiguous-subtree invariant.
`PChild`/`HCA` capture the `isHidden` ancestor walk, which consults only the
record store (not Order) and treats a falsy or dangling parent reference as
"no parent". -/

/-- `c` is a direct child of `p` for the engine's child lookup: `c` occurs in
Order and its live record stores `parentId = p`. -/
def Child (st : WState) (p c : String) : Prop :=
  c ∈ st.order ∧ ∃ it, st.items c = some it ∧ it.parentId = some p

/-- `c` is a (strict, transitive) descendant of `p`. -/
def Descendant (st : WState) (p c : String) : Prop :=
  Relation.TransGen (Child st) p c

/-- The contiguous-subtree invariant: every descendant of `n` sits after `n`
in Order, and everything strictly between `n` and one of its descendants is
itself a descendant of `n` (so the descendant set is a contiguous run
immediately after `n`, with no outside node inside the run). -/
def ContigInv (st : WState) : Prop :=
  ∀ n d, n ∈ st.order → d ∈ st.order → Descendant st n d →
    st.order.indexOf n < st.order.indexOf d ∧
    ∀ x, x ∈ st.order → st.order.indexOf n < st.order.indexOf x →
      st.order.indexOf x < st.order.indexOf d → Descendant st n x

/-- One upward step of the `isHidden` walk, read downward: `c` has a live
record whose `parentId` is the nonempty string `p`, and `p`'s record is live
(a falsy or dangling reference ends the walk instead). -/
def PChild (st : WState) (p c : String) : Prop :=
  ∃ itc itp, st.items c = some itc ∧ itc.parentId = some p ∧ p ≠ "" ∧ st.items p = some itp

/-- `c` lies in the subtree below `p` for the `isHidden` walk. -/
def PDesc (st : WState) (p c : String) : Prop :=
  Relation.TransGen (PChild st) p c

/-- `id` has a collapsed strict ancestor along the `parentId` walk: the walk
from `id` reaches, through live records with truthy parent references, some
ancestor whose record has `collapsed = true`. -/
inductive HCA (st : WState) : String → Prop
  | here : ∀ {id it p par}, st.items id = some it → it.parentId = some p → p ≠ "" →
      st.items p = some par → par.collapsed = true → HCA st id
  | up : ∀ {id it p par}, st.items id = some it → it.parentId = some p → p ≠ "" →
      st.items p = some par → HCA st p → HCA st id

/-!  ## Concrete states used by individual claims -/

/-- C1 state: `[P1, S1, T1]` with `S1` a child of `P1` and `T1` a child of
`S1` (so `P1`'s subtree block is the whole sequence and `S1`'s block is
`[S1, T1]`). -/
def stAddSplit : WState :=
  { order := ["P1", "S1", "T1"],
    items := mkStore [mkItem "P1" .primary none, mkItem "S1" .secondary (some "P1"),
                      mkItem "T1" .tertiary (some "S1")],
    selected := none }

/-- C2 states: the UI-reachable call sequence `addItem(secondary, "000001")`,
`addItem(tertiary, S1)`, `addItem(secondary, "000001")` from the widget's
initial state (fresh generated ids `S1`, `T1`, `S2`). -/
def stSeq1 : WState := addItem initialState .secondary (some "000001") "S1"

/-- Second state of the C2 sequence. -/
def stSeq2 : WState := addItem stSeq1 .tertiary (some "S1") "T1"

/-- Third state of the C2 sequence. -/
def stSeq3 : WState := addItem stSeq2 .secondary (some "000001") "S2"

/-- C4 state: two roots `P1`, `P2`; `S1`, `S2` children of `P1`; `T1` a child
of `S1`.  Order `[P1, S1, T1, S2, P2]` is the depth-first pre-order of this
forest, so the structural invariants hold. -/
def stMoveDeep : WState :=
  { order := ["P1", "S1", "T1", "S2", "P2"],
    items := mkStore [mkItem "P1" .primary none, mkItem "S1" .secondary (some "P1"),
                      mkItem "T1" .tertiary (some "S1"), mkItem "S2" .secondary (some "P1"),
                      mkItem "P2" .primary none],
    selected := none }

/-- C8 state: roots `P0`, `P1`; `S1`, `S2` children of `P1`; `T1` a child of
`S1`.  Order `[P0, P1, S1, T1, S2]` is the pre-order of this forest. -/
def stUpDown : WState :=
  { order := ["P0", "P1", "S1", "T1", "S2"],
    items := mkStore [mkItem "P0" .primary none, mkItem "P1" .primary none,
                      mkItem "S1" .secondary (some "P1"), mkItem "T1" .tertiary (some "S1"),
                      mkItem "S2" .secondary (some "P1")],
    selected := none }

/-- C5 state: two live records whose stored `parentId` references form a
cycle (`A`'s parent is `B`, `B`'s parent is `A`), neither collapsed. -/
def stCycle : WState :=
  { order := ["A", "B"],
    items := mkStore [mkItem "A" .primary (some "B"), mkItem "B" .primary (some "A")],
    selected := none }

/-- C7 counterexample state: Order contains the id `B` twice (the Record
store itself is fine: two live root records `A` and `B`). -/
def stDupOrder : WState :=
  { order := ["B", "A", "B"],
    items := mkStore [mkItem "A" .primary none, mkItem "B" .primary none],
    selected := none }

/-- C3 counterexample state: a single live node `A` whose stored `parentId`
is the dangling reference `X` (no record under `X`). -/
def stDangling : WState :=
  { order := ["A"],
    items := mkStore [mkItem "A" .primary (some "X")],
    selected := none }

/-- C1: on the state `[P1, S1, T1]` (with `T1` a child of `S1`),
`addItem(secondary, P1)` inserts the new id at
`indexOf(P1) + #directChildren(P1) + 1 = 2`, i.e. *inside* `S1`'s subtree
block, producing `[P1, S1, S2, T1]` — not `[P1, S1, T1, S2]` (after `P1`'s
whole subtree block) as the claim states. -/
theorem addItem_splits_parent_block :
    (addItem stAddSplit .secondary (some "P1") "S2").order = ["P1", "S1", "S2", "T1"] ∧
    stAddSplit.items "T1" = some (mkItem "T1" .tertiary (some "S1")) ∧
    (["P1", "S1", "S2", "T1"] : List String) ≠ ["P1", "S1", "T1", "S2"] :=
  ⟨by decide, by decide, by decide⟩

/-- C2: after the UI-reachable sequence `addItem(secondary, 000001) = S1`,
`addItem(tertiary, S1) = T1`, `addItem(secondary, 000001) = S2` from the
initial state, Order is `[000001, S1, S2, T1]`: `S2` — not a descendant of
`S1` — sits strictly between `S1` and `S1`'s descendant `T1`, so the
contiguous-subtree invariant fails after the third call. -/
theorem invariant_broken_by_addItem_sequence :
    stSeq3.order = ["000001", "S1", "S2", "T1"] ∧ ¬ ContigInv stSeq3 := by
  refine ⟨by decide, ?_⟩
  intro h
  have hd : Descendant stSeq3 "S1" "T1" :=
    Relation.TransGen.single ⟨by decide, mkItem "T1" .tertiary (some "S1"), by decide, rfl⟩
  have h2 := h "S1" "T1" (by decide) (by decide) hd
  have h3 : Descendant stSeq3 "S1" "S2" :=
    h2.2 "S2" (by decide) (by decide) (by decide)
  have hS2 : stSeq3.items "S2" = some (mkItem "S2" .secondary (some "000001")) := by decide
  have hRoot : stSeq3.items "000001" =
      some { id := "000001", label := "Home", pageTitle := "", url := "/",
             level := .primary, parentId := none, collapsed := false } := by decide
  cases h3 with
  | single hc =>
    obtain ⟨-, it, hit, hpar⟩ := hc
    rw [hS2] at hit
    cases hit
    exact absurd hpar (by decide)
  | tail hTG hc =>
    obtain ⟨-, it, hit, hpar⟩ := hc
    rw [hS2] at hit
    cases hit
    cases hpar
    cases hTG with
    | single hc2 =>
      obtain ⟨-, it2, hit2, hpar2⟩ := hc2
      rw [hRoot] at hit2
      cases hit2
      exact absurd hpar2 (by decide)
    | tail _ hc2 =>
      obtain ⟨-, it2, hit2, hpar2⟩ := hc2
      rw [hRoot] at hit2
      cases hit2
      simp at hpar2

/-- C4: on the invariant-satisfying state `[P1, S1, T1, S2, P2]` (where
`P1`'s block is `[P1, S1, T1, S2]`), `moveDown(P1)` reinserts the block as
`[P1, S1, S2, T1]` — the children-first flattening computed by
`getAllDescendants` — instead of preserving the block's internal order
`[P1, S1, T1, S2]`. -/
theorem moveDown_reorders_subtree_block :
    (moveDownF 10 stMoveDeep "P1").map WState.order = some ["P2", "P1", "S1", "S2", "T1"] ∧
    (["P2", "P1", "S1", "S2", "T1"] : List String) ≠ ["P2", "P1", "S1", "T1", "S2"] :=
  ⟨by decide, by decide⟩

/-- C5: on the cyclic state `stCycle` (`A`'s parent is `B`, `B`'s parent is
`A`), neither `getAllDescendants(A)` nor `isHidden(A)` bottoms out at any
recursion depth: the source recursions have no cycle guard and diverge. -/
theorem getAllDescendants_isHidden_diverge_on_cycle :
    ∀ fuel : Nat, getAllDescendantsF fuel stCycle "A" = none ∧
      isHiddenF fuel stCycle "A" = none := by
  have hchA : getChildren stCycle "A" = ["B"] := by decide
  have hchB : getChildren stCycle "B" = ["A"] := by decide
  have hA : stCycle.items "A" = some (mkItem "A" .primary (some "B")) := by decide
  have hB : stCycle.items "B" = some (mkItem "B" .primary (some "A")) := by decide
  have key : ∀ fuel : Nat,
      (getAllDescendantsF fuel stCycle "A" = none ∧ getAllDescendantsF fuel stCycle "B" = none) ∧
      (isHiddenF fuel stCycle "A" = none ∧ isHiddenF fuel stCycle "B" = none) := by
    intro fuel
    induction fuel with
    | zero => exact ⟨⟨rfl, rfl⟩, ⟨rfl, rfl⟩⟩
    | succ f ih =>
      refine ⟨⟨?_, ?_⟩, ?_, ?_⟩
      · simp [getAllDescendantsF, hchA, collectDesc, ih.1.2]
      · simp [getAllDescendantsF, hchB, collectDesc, ih.1.1]
      · simp [isHiddenF, hA, hB, truthy, mkItem, ih.2.2]
      · simp [isHiddenF, hA, hB, truthy, mkItem, ih.2.1]
  exact fun fuel => ⟨(key fuel).1.1, (key fuel).2.1⟩

/-- C6: `generateId` performs no collision check.  When the random draw is
`1` on the initial state (which already stores id `"000001"`), `addItem`
overwrites the existing `"Home"` record with the new empty record and
appends a second copy of `"000001"` to Order. -/
theorem addItem_collision_overwrites :
    generateId 1 = "000001" ∧
    initialState.items "000001" =
      some { id := "000001", label := "Home", pageTitle := "", url := "/",
             level := .primary, parentId := none, collapsed := false } ∧
    (addItem initialState .primary none "000001").items "000001" =
      some (mkItem "000001" .primary none) ∧
    (addItem initialState .primary none "000001").order = ["000001", "000001"] :=
  ⟨by decide, by decide, by decide, by decide⟩

/-- C8: on the invariant-satisfying state `[P0, P1, S1, T1, S2]`, `moveUp(P1)`
is legal, `moveDown(P1)` is legal afterwards, and the pair of calls yields
`[P0, P1, S1, S2, T1]` — not the original Order `[P0, P1, S1, T1, S2]`:
the moved block is reinserted in children-first order, so the round trip is
not the identity. -/
theorem moveUp_moveDown_not_inverse :
    canMoveUp stUpDown "P1" = true ∧
    (moveUpF 10 stUpDown "P1").map (fun s => canMoveDown s "P1") = some true ∧
    ((moveUpF 10 stUpDown "P1").bind (fun s => moveDownF 10 s "P1")).map WState.order
      = some ["P0", "P1", "S1", "S2", "T1"] ∧
    stUpDown.order = ["P0", "P1", "S1", "T1", "S2"] ∧
    (["P0", "P1", "S1", "S2", "T1"] : List String) ≠ ["P0", "P1", "S1", "T1", "S2"] :=
  ⟨by decide, by decide, by decide, by decide, by decide⟩

/-- C10: `addItem` unconditionally sets the selection to the newly created
id (and stores the fresh record under it), whatever was selected before. -/
theorem addItem_selects_new_item (st : WState) (level : Level) (parentId : Option String)
    (newId : String) :
    (addItem st level parentId newId).selected = some newId ∧
    (addItem st level parentId newId).items newId = some (mkItem newId level parentId) := by
  unfold addItem mkItem
  split <;> simp

/-- C7 counterexample: on the state whose Order is `[B, A, B]` (duplicate
entry `B`; both records live roots), `canMoveDown(A)` is `true`, yet
`moveDown(A)` terminates and leaves Order unchanged. -/
theorem canMoveDown_true_but_moveDown_noop :
    canMoveDown stDupOrder "A" = true ∧
    (moveDownF 5 stDupOrder "A").map WState.order = some ["B", "A", "B"] ∧
    stDupOrder.order = ["B", "A", "B"] :=
  ⟨by decide, by decide, by decide⟩

/-- C3 counterexample: on the state with the single live node `A` whose
stored parent is the dangling id `X` (absent from the Record store),
`deleteItem(X)` is *not* a no-op: the recursive child lookup finds `A` as a
"descendant" of `X` and deletes it from Order and the store. -/
theorem deleteItem_absent_id_not_noop :
    stDangling.items "X" = none ∧
    stDangling.order = ["A"] ∧
    stDangling.items "A" = some (mkItem "A" .primary (some "X")) ∧
    (deleteItemF 5 stDangling "X").map WState.order = some [] ∧
    (deleteItemF 5 stDangling "X").map (fun s => s.items "A") = some none :=
  ⟨by decide, by decide, by decide, by decide, by decide⟩

/-!  ## General lemmas about the embedded engine -/

/-- Head-side case analysis for `Relation.TransGen`. -/
theorem transGen_cases_head {α : Type} {r : α → α → Prop} {a c : α}
    (h : Relation.TransGen r a c) : r a c ∨ ∃ b, r a b ∧ Relation.TransGen r b c := by
  induction h with
  | single h => exact Or.inl h
  | tail _ hbc ih =>
    rcases ih with h | ⟨b, hab, hbc'⟩
    · exact Or.inr ⟨_, h, Relation.TransGen.single hbc⟩
    · exact Or.inr ⟨b, hab, hbc'.tail hbc⟩

/-- Membership in `getChildren` is exactly the `Child` relation. -/
theorem mem_getChildren {st : WState} {p x : String} :
    x ∈ getChildren st p ↔ Child st p x := by
  unfold getChildren Child
  rw [List.mem_filter]
  constructor
  · rintro ⟨hmem, hpred⟩
    refine ⟨hmem, ?_⟩
    cases hit : st.items x with
    | none => rw [hit] at hpred; cases hpred
    | some it =>
      rw [hit] at hpred
      exact ⟨it, rfl, by simpa using hpred⟩
  · rintro ⟨hmem, it, hit, hpar⟩
    refine ⟨hmem, ?_⟩
    rw [hit]
    simp [hpar]

/-- Membership in the sibling filter. -/
theorem mem_siblingsOf {st : WState} {item : NavItem} {x : String} :
    x ∈ siblingsOf st item ↔
      x ∈ st.order ∧
        ∃ s, st.items x = some s ∧ s.parentId = item.parentId ∧ s.level = item.level := by
  unfold siblingsOf
  rw [List.mem_filter]
  constructor
  · rintro ⟨hmem, hpred⟩
    refine ⟨hmem, ?_⟩
    cases hit : st.items x with
    | none => rw [hit] at hpred; cases hpred
    | some s =>
      rw [hit] at hpred
      simp only [Bool.and_eq_true, beq_iff_eq] at hpred
      exact ⟨s, rfl, hpred.1, hpred.2⟩
  · rintro ⟨hmem, s, hit, h1, h2⟩
    refine ⟨hmem, ?_⟩
    rw [hit]
    simp [h1, h2]

/-- A live node occurring in Order occurs in its own sibling list. -/
theorem self_mem_siblingsOf {st : WState} {id : String} {item : NavItem}
    (hid : st.items id = some item) (hmem : id ∈ st.order) :
    id ∈ siblingsOf st item :=
  mem_siblingsOf.2 ⟨hmem, item, hid, rfl, rfl⟩

/-- `List.contains` agrees with membership for `String` lists. -/
theorem contains_iff_mem {l : List String} {x : String} : l.contains x = true ↔ x ∈ l :=
  List.elem_iff

theorem jsIndexOf_of_mem {l : List String} {x : String} (h : x ∈ l) :
    jsIndexOf l x = (l.indexOf x : Int) := by
  unfold jsIndexOf; rw [if_pos h]

theorem jsIndexOf_of_not_mem {l : List String} {x : String} (h : x ∉ l) :
    jsIndexOf l x = -1 := by
  unfold jsIndexOf; rw [if_neg h]

/-- Unfolding `getAllDescendantsF` at positive fuel. -/
theorem getAllDescendantsF_succ (fuel : Nat) (st : WState) (p : String) :
    getAllDescendantsF (fuel+1) st p =
      (collectDesc (getAllDescendantsF fuel st) (getChildren st p)).map
        fun ds => getChildren st p ++ ds := rfl

/-- Eliminate a successful `getAllDescendantsF` computation. -/
theorem desc_succ_elim {fuel : Nat} {st : WState} {p : String} {l : List String}
    (h : getAllDescendantsF (fuel+1) st p = some l) :
    ∃ ds, collectDesc (getAllDescendantsF fuel st) (getChildren st p) = some ds ∧
      l = getChildren st p ++ ds := by
  rw [getAllDescendantsF_succ] at h
  rcases Option.map_eq_some'.1 h with ⟨ds, hds, hl⟩
  exact ⟨ds, hds, hl.symm⟩

/-- If the sequential collection succeeds, each child's recursive call
succeeds and contributes all its elements to the total. -/
theorem collectDesc_mem_some {g : String → Option (List String)} :
    ∀ {cs ds : List String}, collectDesc g cs = some ds → ∀ {c : String}, c ∈ cs →
      ∃ d, g c = some d ∧ ∀ x ∈ d, x ∈ ds := by
  intro cs
  induction cs with
  | nil => intro ds _ c hc; cases hc
  | cons a as ih =>
    intro ds h c hc
    cases hga : g a with
    | none => simp [collectDesc, hga] at h
    | some d0 =>
      cases hcd : collectDesc g as with
      | none => simp [collectDesc, hga, hcd] at h
      | some rest =>
        simp only [collectDesc, hga, hcd, Option.some.injEq] at h
        subst h
        cases hc with
        | head => exact ⟨d0, hga, fun x hx => List.mem_append_left _ hx⟩
        | tail _ hmem =>
          obtain ⟨d, hgd, hsub⟩ := ih hcd hmem
          exact ⟨d, hgd, fun x hx => List.mem_append_right _ (hsub x hx)⟩

/-- Every element of a successful sequential collection comes from some
child's successful recursive call. -/
theorem collectDesc_mem_from {g : String → Option (List String)} :
    ∀ {cs ds : List String}, collectDesc g cs = some ds → ∀ {x : String}, x ∈ ds →
      ∃ c, c ∈ cs ∧ ∃ d, g c = some d ∧ x ∈ d := by
  intro cs
  induction cs with
  | nil =>
    intro ds h x hx
    simp only [collectDesc, Option.some.injEq] at h
    subst h
    cases hx
  | cons a as ih =>
    intro ds h x hx
    cases hga : g a with
    | none => simp [collectDesc, hga] at h
    | some d0 =>
      cases hcd : collectDesc g as with
      | none => simp [collectDesc, hga, hcd] at h
      | some rest =>
        simp only [collectDesc, hga, hcd, Option.some.injEq] at h
        subst h
        rcases List.mem_append.1 hx with hx | hx
        · exact ⟨a, List.mem_cons_self a as, d0, hga, hx⟩
        · obtain ⟨c, hc, d, hgd, hxd⟩ := ih hcd hx
          exact ⟨c, List.mem_cons_of_mem a hc, d, hgd, hxd⟩

/-- Soundness: every element of a successful `getAllDescendants` run is a
descendant (transitive child) of the queried id. -/
theorem desc_sound : ∀ (fuel : Nat) (st : WState) (p : String) (l : List String),
    getAllDescendantsF fuel st p = some l → ∀ x ∈ l, Descendant st p x := by
  intro fuel
  induction fuel with
  | zero => intro st p l h; cases h
  | succ f ih =>
    intro st p l h x hx
    obtain ⟨ds, hcd, rfl⟩ := desc_succ_elim h
    rcases List.mem_append.1 hx with hx | hx
    · exact Relation.TransGen.single (mem_getChildren.1 hx)
    · obtain ⟨c, hc, d, hgd, hxd⟩ := collectDesc_mem_from hcd hx
      exact Relation.TransGen.head (mem_getChildren.1 hc) (ih st c d hgd x hxd)

/-- Completeness: a successful `getAllDescendants` run contains every
descendant of the queried id. -/
theorem desc_complete : ∀ (fuel : Nat) (st : WState) (p : String) (l : List String),
    getAllDescendantsF fuel st p = some l → ∀ x, Descendant st p x → x ∈ l := by
  intro fuel
  induction fuel with
  | zero => intro st p l h; cases h
  | succ f ih =>
    intro st p l h x hdx
    obtain ⟨ds, hcd, rfl⟩ := desc_succ_elim h
    rcases transGen_cases_head hdx with hc | ⟨c, hc, htc⟩
    · exact List.mem_append_left _ (mem_getChildren.2 hc)
    · obtain ⟨d, hgd, hsub⟩ := collectDesc_mem_some hcd (mem_getChildren.2 hc)
      exact List.mem_append_right _ (hsub x (ih st c d hgd x htc))

/-- A successful `getAllDescendants` run rules out a descendant cycle through
the queried id (on a cycle the recursion would exhaust every fuel). -/
theorem desc_no_self : ∀ (fuel : Nat) (st : WState) (p : String) (l : List String),
    getAllDescendantsF fuel st p = some l → ¬ Descendant st p p := by
  intro fuel
  induction fuel with
  | zero => intro st p l h; cases h
  | succ f ih =>
    intro st p l h hpp
    obtain ⟨ds, hcd, -⟩ := desc_succ_elim h
    rcases transGen_cases_head hpp with hc | ⟨c, hc, htc⟩
    · obtain ⟨d, hgd, -⟩ := collectDesc_mem_some hcd (mem_getChildren.2 hc)
      exact ih st p d hgd (Relation.TransGen.single hc)
    · obtain ⟨d, hgd, -⟩ := collectDesc_mem_some hcd (mem_getChildren.2 hc)
      exact ih st c d hgd (htc.tail hc)

/-- The queried id itself never occurs in a successful
`getAllDescendants` run. -/
theorem desc_self_not_mem {fuel : Nat} {st : WState} {p : String} {l : List String}
    (h : getAllDescendantsF fuel st p = some l) : p ∉ l :=
  fun hin => desc_no_self fuel st p l h (desc_sound fuel st p l h p hin)

/-- A sibling of `id` (same stored `parentId`) never occurs in a successful
`getAllDescendants id` run when `id` is live and present in Order: otherwise
the parent chain would close into a cycle and the run could not succeed. -/
theorem sibling_not_descendant {fuel : Nat} {st : WState} {id : String} {l : List String}
    {item sibIt : NavItem} {sib : String}
    (hdesc : getAllDescendantsF fuel st id = some l)
    (hid : st.items id = some item) (hmem : id ∈ st.order)
    (hsib : st.items sib = some sibIt) (hpar : sibIt.parentId = item.parentId) :
    sib ∉ l := by
  intro hin
  have htg : Descendant st id sib := desc_sound fuel st id l hdesc sib hin
  cases htg with
  | single hc =>
    obtain ⟨-, it, hit, hp⟩ := hc
    rw [hsib] at hit
    cases hit
    have hcyc : Child st id id := ⟨hmem, item, hid, hpar.symm.trans hp⟩
    exact desc_no_self fuel st id l hdesc (Relation.TransGen.single hcyc)
  | tail htg' hc =>
    obtain ⟨-, it, hit, hp⟩ := hc
    rw [hsib] at hit
    cases hit
    have hcb : Child st _ id := ⟨hmem, item, hid, hpar.symm.trans hp⟩
    exact desc_no_self fuel st id l hdesc (htg'.tail hcb)

/-- Two positions of a list, in increasing order, form a sublist pair. -/
theorem pair_sublist_of_lt {α : Type} : ∀ (l : List α) (i j : Nat) (hi : i < l.length)
    (hj : j < l.length), i < j → List.Sublist [l.get ⟨i, hi⟩, l.get ⟨j, hj⟩] l := by
  intro l
  induction l with
  | nil => intro i j hi; exact absurd hi (Nat.not_lt_zero _)
  | cons a as ih =>
    intro i j hi hj hij
    cases i with
    | zero =>
      cases j with
      | zero => exact absurd hij (lt_irrefl 0)
      | succ j' =>
        simp only [List.get_cons_zero, List.get_cons_succ]
        exact List.Sublist.cons₂ a (List.singleton_sublist.2 (List.get_mem as _ _))
    | succ i' =>
      cases j with
      | zero => exact absurd hij (by omega)
      | succ j' =>
        simp only [List.get_cons_succ]
        exact List.Sublist.cons a (ih i' j' _ _ (by omega))

/-- In a duplicate-free list, two distinct elements cannot occur as a
sublist pair in both orders. -/
theorem pair_sublist_asymm {α : Type} {a b : α} : ∀ {l : List α}, l.Nodup → a ≠ b →
    List.Sublist [a, b] l → List.Sublist [b, a] l → False := by
  intro l
  induction l with
  | nil =>
    intro _ _ h
    rw [List.sublist_nil] at h
    cases h
  | cons c cs ih =>
    intro hnd hab h1 h2
    have hcnotin : c ∉ cs := (List.nodup_cons.1 hnd).1
    have hndcs : cs.Nodup := (List.nodup_cons.1 hnd).2
    cases h1 with
    | cons _ h1' =>
      cases h2 with
      | cons _ h2' => exact ih hndcs hab h1' h2'
      | cons₂ _ h2' => exact hcnotin (h1'.subset (by simp))
    | cons₂ _ h1' =>
      cases h2 with
      | cons _ h2' => exact hcnotin (h2'.subset (by simp))
      | cons₂ _ h2' => exact hab rfl

/-- Negated membership through the `!contains` filter predicate. -/
theorem not_contains_iff {l : List String} {x : String} :
    (!(l.contains x)) = true ↔ x ∉ l := by
  rw [Bool.not_eq_true']
  constructor
  · intro h hm
    rw [contains_iff_mem.2 hm] at h
    exact Bool.noConfusion h
  · intro h
    cases hc : l.contains x
    · rfl
    · exact absurd (contains_iff_mem.1 hc) h

/-- Every descendant (in the `Child` sense) has a live record. -/
theorem descendant_live {st : WState} {p x : String} (h : Descendant st p x) :
    ∃ it, st.items x = some it := by
  cases h with
  | single hc => exact ⟨hc.2.choose, hc.2.choose_spec.1⟩
  | tail _ hc => exact ⟨hc.2.choose, hc.2.choose_spec.1⟩

/-- C3 (amended): for every state whose Record store has no node under the
empty-string id, whenever the recursive descendant computation of
`deleteItem(id)` terminates it removes exactly `{id} ∪ descendants(id)` from
both Order and the Record store in one step, keeps every other node's record
and relative position, clears the selection exactly when it lies in the
deleted set, and — provided `id` is absent from the store, absent from
Order, not referenced as any live node's parent, and the selection (if any)
references a live node — changes nothing at all. -/
theorem deleteItem_spec (st : WState) (id : String) (fuel : Nat) (res : WState)
    (hdel : deleteItemF fuel st id = some res) (hE : st.items "" = none) :
    List.Sublist res.order st.order ∧
    (∀ x, x ∈ res.order ↔ x ∈ st.order ∧ ¬(x = id ∨ Descendant st id x)) ∧
    (∀ x, (x = id ∨ Descendant st id x) → res.items x = none) ∧
    (∀ x, x ≠ id → ¬ Descendant st id x → res.items x = st.items x) ∧
    (∀ s, st.selected = some s →
      ((s = id ∨ Descendant st id s) → res.selected = none) ∧
      (s ≠ id → ¬ Descendant st id s → res.selected = some s)) ∧
    (st.selected = none → res.selected = none) ∧
    (st.items id = none → id ∉ st.order →
      (∀ x it, st.items x = some it → it.parentId ≠ some id) →
      (∀ s, st.selected = some s → st.items s ≠ none) →
      res = st) := by
  cases hfuel : getAllDescendantsF fuel st id with
  | none => rw [deleteItemF, hfuel] at hdel; cases hdel
  | some l =>
  rw [deleteItemF, hfuel, Option.map_some'] at hdel
  have horder : res.order = st.order.filter fun i => !((id :: l).contains i) := by
    rw [← Option.some.inj hdel]
  have hitems : ∀ k, res.items k = if (id :: l).contains k then none else st.items k := by
    intro k; rw [← Option.some.inj hdel]
  have hsel : res.selected =
      if (match st.selected with
          | none => false
          | some s => (s == id) || ((s != "") && (id :: l).contains s)) then none
      else st.selected := by
    rw [← Option.some.inj hdel]
  have hmemdel : ∀ x, x ∈ id :: l ↔ (x = id ∨ Descendant st id x) := by
    intro x
    rw [List.mem_cons]
    constructor
    · rintro (rfl | hx)
      · exact Or.inl rfl
      · exact Or.inr (desc_sound fuel st id l hfuel x hx)
    · rintro (rfl | hx)
      · exact Or.inl rfl
      · exact Or.inr (desc_complete fuel st id l hfuel x hx)
  refine ⟨?_, ?_, ?_, ?_, ?_, ?_, ?_⟩
  · rw [horder]; exact List.filter_sublist _
  · intro x
    rw [horder, List.mem_filter, not_contains_iff, hmemdel]
  · intro x hx
    rw [hitems x, if_pos (contains_iff_mem.2 ((hmemdel x).2 hx))]
  · intro x hxid hxd
    have hnot : x ∉ id :: l := fun hm => (not_or.2 ⟨hxid, hxd⟩) ((hmemdel x).1 hm)
    rw [hitems x, if_neg ?_]
    intro hcon
    exact hnot (contains_iff_mem.1 hcon)
  · intro s hs
    constructor
    · rintro (rfl | hd)
      · rw [hsel, hs]
        simp
      · have hins : s ∈ l := desc_complete fuel st id l hfuel s hd
        have hlive := descendant_live hd
        have hsne : s ≠ "" := by
          intro h
          rw [h] at hlive
          rw [hE] at hlive
          exact Option.noConfusion hlive.choose_spec
        have h1 : ((s != "") && (id :: l).contains s) = true := by
          rw [Bool.and_eq_true]
          exact ⟨bne_iff_ne.2 hsne, contains_iff_mem.2 (List.mem_cons_of_mem _ hins)⟩
        rw [hsel, hs]
        simp [h1]
        exact fun _ => ⟨hsne, fun _ => hins⟩
    · intro hsid hsd
      have hnot : s ∉ id :: l := fun hm => (not_or.2 ⟨hsid, hsd⟩) ((hmemdel s).1 hm)
      have h1 : (s == id) = false := beq_eq_false_iff_ne.2 hsid
      have h2 : (id :: l).contains s = false := by
        cases hc : (id :: l).contains s
        · rfl
        · exact absurd (contains_iff_mem.1 hc) hnot
      rw [hsel, hs]
      simp [h1, h2]
      exact fun _ => ⟨hsid, fun hm => hnot (List.mem_cons_of_mem _ hm)⟩
  · intro hnone
    rw [hsel, hnone]
    rfl
  · intro hid hord hpar hselLive
    have hch : getChildren st id = [] := by
      apply List.filter_eq_nil_iff.2
      intro a _
      cases hit : st.items a with
      | none => simp [hit]
      | some it =>
        simp only [hit]
        intro hbeq
        exact hpar a it hit (by simpa using hbeq)
    have hleq : l = [] := by
      cases fuel with
      | zero => cases hfuel
      | succ f =>
        obtain ⟨ds, hcd, hl⟩ := desc_succ_elim hfuel
        rw [hch] at hcd hl
        simp only [collectDesc, Option.some.injEq] at hcd
        rw [hl, ← hcd]
        rfl
    subst hleq
    have horder' : res.order = st.order := by
      rw [horder]
      apply List.filter_eq_self.2
      intro a ha
      apply not_contains_iff.2
      intro hm
      rcases List.mem_cons.1 hm with rfl | hm'
      · exact hord ha
      · cases hm'
    have hitems' : res.items = st.items := by
      funext k
      rw [hitems k]
      by_cases hk : k = id
      · subst hk
        rw [if_pos (contains_iff_mem.2 (List.mem_cons_self _ _)), hid]
      · rw [if_neg ?_]
        intro hcon
        rcases List.mem_cons.1 (contains_iff_mem.1 hcon) with rfl | hm'
        · exact hk rfl
        · cases hm'
    have hsel' : res.selected = st.selected := by
      rw [hsel]
      cases hselc : st.selected with
      | none => rfl
      | some s =>
        have hsid : s ≠ id := by
          rintro rfl
          exact hselLive s hselc hid
        have h1 : (s == id) = false := beq_eq_false_iff_ne.2 hsid
        have h2 : ([id] : List String).contains s = false := by
          cases hc : ([id] : List String).contains s
          · rfl
          · rcases List.mem_cons.1 (contains_iff_mem.1 hc) with rfl | hm'
            · exact absurd rfl hsid
            · cases hm'
        simp [h1, h2]
        exact fun _ => hsid
    cases res with
    | mk ro ri rs =>
      cases st with
      | mk so si ss =>
        simp only [WState.mk.injEq]
        exact ⟨horder', hitems', hsel'⟩

/-- C3 witness state: root `A` with child `B`, `B` selected. -/
def stDelWit : WState :=
  { order := ["A", "B"],
    items := mkStore [mkItem "A" .primary none, mkItem "B" .secondary (some "A")],
    selected := some "B" }

/-- The state produced by `deleteItem(A)` on the C3 witness state. -/
def stDelWitRes : WState := (deleteItemF 5 stDelWit "A").getD stDelWit

/-- C3 witness: `deleteItem(A)` on `stDelWit` terminates at fuel 5; by
`deleteItem_spec`, its result is an order-sublist of the original and the
selection (which sat on the deleted child `B`) is cleared. -/
theorem deleteItem_spec_witness :
    deleteItemF 5 stDelWit "A" = some stDelWitRes ∧
    stDelWit.items "" = none ∧
    List.Sublist stDelWitRes.order stDelWit.order ∧
    stDelWitRes.selected = none := by
  have h1 : deleteItemF 5 stDelWit "A" = some stDelWitRes := rfl
  have hmain := deleteItem_spec stDelWit "A" 5 stDelWitRes h1 (by decide)
  refine ⟨h1, by decide, hmain.1, ?_⟩
  have hdesc : Descendant stDelWit "A" "B" :=
    Relation.TransGen.single ⟨by decide, mkItem "B" .secondary (some "A"), by decide, rfl⟩
  exact (hmain.2.2.2.2.1 "B" rfl).1 (Or.inr hdesc)

/-!  ## The `isHidden` walk -/

/-- Fieldwise extensionality for `WState`. -/
theorem WState.ext' {a b : WState} (ho : a.order = b.order) (hi : a.items = b.items)
    (hs : a.selected = b.selected) : a = b := by
  cases a
  cases b
  simp only [WState.mk.injEq]
  exact ⟨ho, hi, hs⟩

/-- A truthy optional string is a nonempty string. -/
theorem truthy_iff {o : Option String} : truthy o = true ↔ ∃ p, o = some p ∧ p ≠ "" := by
  cases o with
  | none => simp [truthy]
  | some q =>
    simp only [truthy, bne_iff_ne, Option.some.injEq]
    constructor
    · intro h
      exact ⟨q, rfl, h⟩
    · rintro ⟨p, rfl, h⟩
      exact h

/-- `toggleCollapsed` leaves Order untouched. -/
theorem toggleCollapsed_order (st : WState) (id : String) :
    (toggleCollapsed st id).order = st.order := by
  unfold toggleCollapsed
  cases st.items id <;> rfl

/-- `toggleCollapsed` leaves the selection untouched. -/
theorem toggleCollapsed_selected (st : WState) (id : String) :
    (toggleCollapsed st id).selected = st.selected := by
  unfold toggleCollapsed
  cases st.items id <;> rfl

/-- The record store after `toggleCollapsed` on a live id. -/
theorem toggleCollapsed_items_eq {st : WState} {id : String} {item : NavItem}
    (h : st.items id = some item) :
    (toggleCollapsed st id).items = fun k =>
      if k = id then some { item with collapsed := !item.collapsed } else st.items k := by
  unfold toggleCollapsed
  rw [h]

/-- `toggleCollapsed` twice on a live id is the identity. -/
theorem toggleCollapsed_twice {st : WState} {id : String} {item : NavItem}
    (h : st.items id = some item) :
    toggleCollapsed (toggleCollapsed st id) id = st := by
  obtain ⟨a, b, c, d, e, f, g⟩ := item
  have h1 : (toggleCollapsed st id).items id =
      some ⟨a, b, c, d, e, f, !g⟩ := by
    rw [toggleCollapsed_items_eq h]
    simp
  apply WState.ext'
  · rw [toggleCollapsed_order, toggleCollapsed_order]
  · rw [toggleCollapsed_items_eq h1, toggleCollapsed_items_eq h]
    funext k
    by_cases hk : k = id
    · subst hk
      simp [h]
    · simp [hk]
  · rw [toggleCollapsed_selected, toggleCollapsed_selected]



/-- dir1: a true verdict implies a collapsed reachable ancestor. -/
theorem hca_of_isHiddenF_true : ∀ (fuel : Nat) (st : WState) (id : String),
    isHiddenF fuel st id = some true → HCA st id := by
  intro fuel
  induction fuel with
  | zero => intro st id h; cases h
  | succ f ih =>
    intro st id h
    simp only [isHiddenF] at h
    cases hit : st.items id with
    | none => simp [hit] at h
    | some item =>
      simp only [hit] at h
      cases hpar : item.parentId with
      | none => simp [hpar, truthy] at h
      | some q =>
        by_cases hq : q = ""
        · subst hq
          simp [hpar, truthy] at h
        · have htr : truthy (some q) = true := truthy_iff.2 ⟨q, rfl, hq⟩
          simp only [hpar, htr, eq_self_iff_true, if_true, Option.getD_some] at h
          cases hpp : st.items q with
          | none => simp [hpp] at h
          | some parent =>
            simp only [hpp] at h
            cases hcol : parent.collapsed with
            | true => exact HCA.here hit hpar hq hpp hcol
            | false =>
              simp only [hcol, Bool.false_eq_true, if_false] at h
              exact HCA.up hit hpar hq hpp (ih st q h)

/-- dir2: with a collapsed reachable ancestor, any verdict is `true`. -/
theorem isHiddenF_true_of_hca {st : WState} {id : String} (hca : HCA st id) :
    ∀ (fuel : Nat) (b : Bool), isHiddenF fuel st id = some b → b = true := by
  induction hca with
  | @here id it p par h1 h2 h3 h4 h5 =>
    intro fuel b h
    cases fuel with
    | zero => cases h
    | succ f =>
      have htr : truthy (some p) = true := truthy_iff.2 ⟨p, rfl, h3⟩
      have hcomp : isHiddenF (f+1) st id = some true := by
        simp [isHiddenF, h1, h2, htr, h4, h5]
      rw [hcomp] at h
      exact (Option.some.inj h).symm
  | @up id it p par h1 h2 h3 h4 h6 ih =>
    intro fuel b h
    cases fuel with
    | zero => cases h
    | succ f =>
      have htr : truthy (some p) = true := truthy_iff.2 ⟨p, rfl, h3⟩
      cases hcol : par.collapsed with
      | true =>
        have hcomp : isHiddenF (f+1) st id = some true := by
          simp [isHiddenF, h1, h2, htr, h4, hcol]
        rw [hcomp] at h
        exact (Option.some.inj h).symm
      | false =>
        have hcomp : isHiddenF (f+1) st id = isHiddenF f st p := by
          simp [isHiddenF, h1, h2, htr, h4, hcol]
        rw [hcomp] at h
        exact ih f b h

/-- Toggling a live id leaves every other record untouched. -/
theorem toggle_items_ne {st : WState} {n : String} {item : NavItem}
    (hn : st.items n = some item) {k : String} (hk : k ≠ n) :
    (toggleCollapsed st n).items k = st.items k := by
  rw [toggleCollapsed_items_eq hn]
  simp [hk]

/-- Toggling a live id flips exactly its `collapsed` field. -/
theorem toggle_items_self {st : WState} {n : String} {item : NavItem}
    (hn : st.items n = some item) :
    (toggleCollapsed st n).items n = some { item with collapsed := !item.collapsed } := by
  rw [toggleCollapsed_items_eq hn]
  simp

/-- Toggling preserves the stored parent reference of every record. -/
theorem toggle_parentId {st : WState} {n : String} {item : NavItem}
    (hn : st.items n = some item) (k : String) :
    Option.map NavItem.parentId ((toggleCollapsed st n).items k)
      = Option.map NavItem.parentId (st.items k) := by
  rw [toggleCollapsed_items_eq hn]
  by_cases hk : k = n
  · subst hk
    simp [hn]
  · simp [hk]

/-- Toggling preserves liveness of every record. -/
theorem toggle_isSome {st : WState} {n : String} {item : NavItem}
    (hn : st.items n = some item) (k : String) :
    ((toggleCollapsed st n).items k).isSome = (st.items k).isSome := by
  rw [toggleCollapsed_items_eq hn]
  by_cases hk : k = n
  · subst hk
    simp [hn]
  · simp [hk]

/-- `PChild` through record projections. -/
theorem pchild_iff {st : WState} {p c : String} :
    PChild st p c ↔
      (Option.map NavItem.parentId (st.items c) = some (some p) ∧ p ≠ "" ∧
        (st.items p).isSome = true) := by
  unfold PChild
  constructor
  · rintro ⟨itc, itp, h1, h2, h3, h4⟩
    rw [h1, h4]
    exact ⟨by simp [h2], h3, rfl⟩
  · rintro ⟨h1, h3, h4⟩
    cases hc : st.items c with
    | none => rw [hc] at h1; cases h1
    | some itc =>
      rw [hc] at h1
      cases hp : st.items p with
      | none => rw [hp] at h4; exact absurd h4 (by simp)
      | some itp => exact ⟨itc, itp, rfl, by simpa using h1, h3, rfl⟩

/-- Toggling does not change the `isHidden` step relation. -/
theorem pchild_toggle {st : WState} {n : String} {item : NavItem}
    (hn : st.items n = some item) (p c : String) :
    PChild (toggleCollapsed st n) p c ↔ PChild st p c := by
  rw [pchild_iff, pchild_iff, toggle_parentId hn, toggle_isSome hn]

/-- Toggling does not change the `isHidden` descendant relation. -/
theorem pdesc_toggle {st : WState} {n : String} {item : NavItem}
    (hn : st.items n = some item) (a d : String) :
    PDesc (toggleCollapsed st n) a d ↔ PDesc st a d := by
  constructor
  · intro h
    induction h with
    | single h => exact Relation.TransGen.single ((pchild_toggle hn _ _).1 h)
    | tail _ h ih => exact ih.tail ((pchild_toggle hn _ _).1 h)
  · intro h
    induction h with
    | single h => exact Relation.TransGen.single ((pchild_toggle hn _ _).2 h)
    | tail _ h ih => exact ih.tail ((pchild_toggle hn _ _).2 h)

/-- Collapsing an expanded node gives every node of its `isHidden` subtree a
collapsed reachable ancestor. -/
theorem hca_toggle_of_pdesc {st : WState} {n : String} {item : NavItem}
    (hn : st.items n = some item) (hcol : item.collapsed = false) :
    ∀ d, PDesc st n d → HCA (toggleCollapsed st n) d := by
  intro d h
  induction h with
  | @single d0 h =>
    obtain ⟨itc, itp, h1, h2, h3, h4⟩ := h
    by_cases hd : d0 = n
    · subst hd
      rw [hn] at h1
      cases Option.some.inj h1
      exact HCA.here (toggle_items_self hn) (by simpa using h2) h3 (toggle_items_self hn)
        (by simp [hcol])
    · exact HCA.here (by rw [toggle_items_ne hn hd]; exact h1) h2 h3 (toggle_items_self hn)
        (by simp [hcol])
  | @tail b d0 _ h ihStep =>
    obtain ⟨itc, itp, h1, h2, h3, h4⟩ := h
    obtain ⟨par', hpar'⟩ : ∃ par', (toggleCollapsed st n).items b = some par' := by
      by_cases hb : b = n
      · subst hb
        exact ⟨_, toggle_items_self hn⟩
      · exact ⟨itp, by rw [toggle_items_ne hn hb]; exact h4⟩
    by_cases hdn : d0 = n
    · subst hdn
      rw [hn] at h1
      cases Option.some.inj h1
      exact HCA.up (toggle_items_self hn) (by simpa using h2) h3 hpar' ihStep
    · exact HCA.up (by rw [toggle_items_ne hn hdn]; exact h1) h2 h3 hpar' ihStep

/-- Outside the toggled node's subtree, a collapsed ancestor after the toggle
was already collapsed before it. -/
theorem hca_toggle_rev {st : WState} {n : String} {item : NavItem}
    (hn : st.items n = some item) :
    ∀ d, HCA (toggleCollapsed st n) d → d ≠ n → ¬ PDesc st n d → HCA st d := by
  intro d hca
  induction hca with
  | @here d0 it p par h1 h2 h3 h4 h5 =>
    intro hdn hnd
    rw [toggle_items_ne hn hdn] at h1
    by_cases hp : p = n
    · subst hp
      exact absurd (Relation.TransGen.single ⟨it, item, h1, h2, h3, hn⟩) hnd
    · rw [toggle_items_ne hn hp] at h4
      exact HCA.here h1 h2 h3 h4 h5
  | @up d0 it p par h1 h2 h3 h4 _ ih =>
    intro hdn hnd
    rw [toggle_items_ne hn hdn] at h1
    by_cases hp : p = n
    · subst hp
      exact absurd (Relation.TransGen.single ⟨it, item, h1, h2, h3, hn⟩) hnd
    · rw [toggle_items_ne hn hp] at h4
      have hnp : ¬ PDesc st n p := by
        intro hh
        exact hnd (hh.tail ⟨it, par, h1, h2, h3, h4⟩)
      exact HCA.up h1 h2 h3 h4 (ih hp hnp)

/-- Outside the toggled node's subtree, a collapsed ancestor before the
toggle is still collapsed after it. -/
theorem hca_toggle_fwd {st : WState} {n : String} {item : NavItem}
    (hn : st.items n = some item) :
    ∀ d, HCA st d → d ≠ n → ¬ PDesc st n d → HCA (toggleCollapsed st n) d := by
  intro d hca
  induction hca with
  | @here d0 it p par h1 h2 h3 h4 h5 =>
    intro hdn hnd
    by_cases hp : p = n
    · subst hp
      exact absurd (Relation.TransGen.single ⟨it, item, h1, h2, h3, hn⟩) hnd
    · exact HCA.here (by rw [toggle_items_ne hn hdn]; exact h1) h2 h3
        (by rw [toggle_items_ne hn hp]; exact h4) h5
  | @up d0 it p par h1 h2 h3 h4 _ ih =>
    intro hdn hnd
    by_cases hp : p = n
    · subst hp
      exact absurd (Relation.TransGen.single ⟨it, item, h1, h2, h3, hn⟩) hnd
    · have hnp : ¬ PDesc st n p := by
        intro hh
        exact hnd (hh.tail ⟨it, par, h1, h2, h3, h4⟩)
      exact HCA.up (by rw [toggle_items_ne hn hdn]; exact h1) h2 h3
        (by rw [toggle_items_ne hn hp]; exact h4) (ih hp hnp)

/-- A collapsed reachable ancestor is found by the walk at some finite depth. -/
theorem exists_fuel_of_hca {st : WState} {id : String} (hca : HCA st id) :
    ∃ fuel, isHiddenF fuel st id = some true := by
  induction hca with
  | @here id it p par h1 h2 h3 h4 h5 =>
    have htr : truthy (some p) = true := truthy_iff.2 ⟨p, rfl, h3⟩
    exact ⟨1, by simp [isHiddenF, h1, h2, htr, h4, h5]⟩
  | @up id it p par h1 h2 h3 h4 _ ih =>
    obtain ⟨f, hf⟩ := ih
    have htr : truthy (some p) = true := truthy_iff.2 ⟨p, rfl, h3⟩
    cases hcol : par.collapsed with
    | true => exact ⟨f + 1, by simp [isHiddenF, h1, h2, htr, h4, hcol]⟩
    | false =>
      refine ⟨f + 1, ?_⟩
      have hstep : isHiddenF (f+1) st id = isHiddenF f st p := by
        simp [isHiddenF, h1, h2, htr, h4, hcol]
      rw [hstep, hf]

/-- C9: whenever the `isHidden` walk terminates it returns `true` exactly
when some reachable strict ancestor is collapsed (a falsy or dangling parent
reference ends the walk un-hidden); and termination with `true` is possible
exactly when such an ancestor exists.  Collapsing an expanded node `n` gives
every node of `n`'s subtree a collapsed ancestor, changes the collapsed-
ancestor status of no node outside the subtree, and toggling twice restores
the state exactly. -/
theorem isHidden_spec (st : WState) (id : String) :
    (∀ fuel b, isHiddenF fuel st id = some b → (b = true ↔ HCA st id)) ∧
    ((∃ fuel, isHiddenF fuel st id = some true) ↔ HCA st id) ∧
    (∀ n item, st.items n = some item → item.collapsed = false →
      (∀ d, PDesc st n d → HCA (toggleCollapsed st n) d) ∧
      (∀ d, d ≠ n → ¬ PDesc st n d → (HCA (toggleCollapsed st n) d ↔ HCA st d))) ∧
    (∀ n item, st.items n = some item → toggleCollapsed (toggleCollapsed st n) n = st) := by
  refine ⟨?_, ?_, ?_, ?_⟩
  · intro fuel b h
    constructor
    · intro hb
      subst hb
      exact hca_of_isHiddenF_true fuel st id h
    · intro hca
      exact isHiddenF_true_of_hca hca fuel b h
  · constructor
    · rintro ⟨fuel, h⟩
      exact hca_of_isHiddenF_true fuel st id h
    · exact exists_fuel_of_hca
  · intro n item hn hcol
    exact ⟨hca_toggle_of_pdesc hn hcol, fun d hdn hnd =>
      ⟨fun h => hca_toggle_rev hn d h hdn hnd, fun h => hca_toggle_fwd hn d h hdn hnd⟩⟩
  · intro n item hn
    exact toggleCollapsed_twice hn

/-- C9 witness state: root `A` (expanded) with child `B`. -/
def stHideWit : WState :=
  { order := ["A", "B"],
    items := mkStore [mkItem "A" .primary none, mkItem "B" .secondary (some "A")],
    selected := none }

/-- C9 witness: on `stHideWit`, the walk at `B` terminates with `false` and
indeed no collapsed ancestor exists; after collapsing `A`, its child `B` has
a collapsed ancestor; and toggling `A` twice is the identity. -/
theorem isHidden_spec_witness :
    isHiddenF 2 stHideWit "B" = some false ∧
    ¬ HCA stHideWit "B" ∧
    HCA (toggleCollapsed stHideWit "A") "B" ∧
    toggleCollapsed (toggleCollapsed stHideWit "A") "A" = stHideWit := by
  have h := isHidden_spec stHideWit "B"
  have hA : stHideWit.items "A" = some (mkItem "A" .primary none) := by decide
  refine ⟨by decide, ?_, ?_, ?_⟩
  · intro hca
    have hb := (h.1 2 false (by decide)).2 hca
    exact Bool.noConfusion hb
  · have hpd : PDesc stHideWit "A" "B" :=
      Relation.TransGen.single
        ⟨mkItem "B" .secondary (some "A"), mkItem "A" .primary none,
          by decide, rfl, by decide, hA⟩
    exact (h.2.2.1 "A" (mkItem "A" .primary none) hA rfl).1 "B" hpd
  · exact h.2.2.2 "A" (mkItem "A" .primary none) hA

/-!  ## `canMoveUp`/`canMoveDown` against the moves -/

/-- `getD` within bounds is `get`. -/
theorem getD_of_lt {l : List String} {n : Nat} (h : n < l.length) (d : String) :
    l.getD n d = l.get ⟨n, h⟩ := by
  rw [List.getD_eq_getElem?_getD, List.getElem?_eq_getElem h]
  rfl

/-- Splicing at a nonnegative (Nat-cast) index. -/
theorem spliceInsert_natCast (l xs : List String) (q : Nat) :
    spliceInsert l (q : Int) xs =
      l.take (min q l.length) ++ (xs ++ l.drop (min q l.length)) := by
  unfold spliceInsert
  rw [if_neg (by omega)]
  have h : ((q : Int)).toNat = q := by omega
  rw [h, List.append_assoc]

/-- Everything in the inserted segment is in the spliced list. -/
theorem mem_spliceInsert_of_mem {l xs : List String} {i : Int} {x : String}
    (h : x ∈ xs) : x ∈ spliceInsert l i xs := by
  unfold spliceInsert
  simp [h]

/-- Inserting the block `[id, ...]` back at the previous sibling's position
cannot reproduce a duplicate-free Order in which `prev` came before `id`. -/
theorem splice_before_ne {ord newIds l : List String} {id prev : String}
    (hnd : ord.Nodup) (hprevne : prev ≠ id)
    (hpair_orig : List.Sublist [prev, id] ord)
    (hprevnew : prev ∈ newIds) :
    spliceInsert newIds ((newIds.indexOf prev : Int)) (id :: l) ≠ ord := by
  intro heq
  have hqlt : newIds.indexOf prev < newIds.length := List.indexOf_lt_length.2 hprevnew
  have hmin : min (newIds.indexOf prev) newIds.length = newIds.indexOf prev := by omega
  rw [spliceInsert_natCast, hmin] at heq
  have hpair_res : List.Sublist [id, prev] ord := by
    rw [← heq]
    refine List.Sublist.trans ?_ (List.sublist_append_right _ _)
    have h1 : List.Sublist [id] (id :: l) := by simp
    have h2 : List.Sublist [prev] (newIds.drop (newIds.indexOf prev)) := by
      rw [List.drop_eq_getElem_cons hqlt, List.getElem_indexOf hqlt]
      simp
    exact h1.append h2
  exact pair_sublist_asymm hnd (Ne.symm hprevne) hpair_res hpair_orig

/-- Inserting the block `[id, ...]` back after the next sibling's block
cannot reproduce a duplicate-free Order in which `id` came before `nxt`. -/
theorem splice_after_ne {ord newIds l : List String} {id nxt : String} {L : Nat}
    (hnd : ord.Nodup) (hne : nxt ≠ id)
    (hpair_orig : List.Sublist [id, nxt] ord)
    (hnxtnew : nxt ∈ newIds) (hL : 1 ≤ L) :
    spliceInsert newIds ((newIds.indexOf nxt : Int) + (L : Int)) (id :: l) ≠ ord := by
  intro heq
  have hqlt : newIds.indexOf nxt < newIds.length := List.indexOf_lt_length.2 hnxtnew
  have hcast : ((newIds.indexOf nxt : Int) + (L : Int)) = ((newIds.indexOf nxt + L : Nat) : Int) := by
    push_cast
    ring
  rw [hcast, spliceInsert_natCast] at heq
  have hqn : newIds.indexOf nxt < min (newIds.indexOf nxt + L) newIds.length := by omega
  have hpair_res : List.Sublist [nxt, id] ord := by
    rw [← heq]
    have h1 : List.Sublist [nxt] (newIds.take (min (newIds.indexOf nxt + L) newIds.length)) := by
      apply List.singleton_sublist.2
      have hlen : newIds.indexOf nxt
          < (newIds.take (min (newIds.indexOf nxt + L) newIds.length)).length := by
        rw [List.length_take]
        omega
      have h3 : (newIds.take (min (newIds.indexOf nxt + L) newIds.length)).get
          ⟨newIds.indexOf nxt, hlen⟩ = nxt := by
        rw [List.get_eq_getElem, List.getElem_take, List.getElem_indexOf hqlt]
      have h4 := List.get_mem (newIds.take (min (newIds.indexOf nxt + L) newIds.length))
        (newIds.indexOf nxt) hlen
      rw [h3] at h4
      exact h4
    have h2 : List.Sublist [id]
        ((id :: l) ++ newIds.drop (min (newIds.indexOf nxt + L) newIds.length)) := by
      apply List.singleton_sublist.2
      simp
    exact h1.append h2
  exact pair_sublist_asymm hnd hne hpair_res hpair_orig

/-- `moveUp` characterized: it never touches the store or the selection, and
on a duplicate-free Order it changes the Order exactly when `canMoveUp`. -/
theorem moveUp_result (st : WState) (id : String) (hnd : st.order.Nodup)
    (fuel : Nat) (st' : WState) (hm : moveUpF fuel st id = some st') :
    st'.items = st.items ∧ st'.selected = st.selected ∧
    (canMoveUp st id = true ↔ st'.order ≠ st.order) := by
  cases hit : st.items id with
  | none =>
    simp only [moveUpF, hit] at hm
    cases Option.some.inj hm
    refine ⟨rfl, rfl, ?_⟩
    simp [canMoveUp, hit]
  | some item =>
    simp only [moveUpF, hit] at hm
    by_cases hle : jsIndexOf (siblingsOf st item) id ≤ 0
    · rw [if_pos hle] at hm
      cases Option.some.inj hm
      refine ⟨rfl, rfl, ?_⟩
      constructor
      · intro hcan
        have h2 : decide ((0:Int) < jsIndexOf (siblingsOf st item) id) = true := by
          simpa [canMoveUp, hit] using hcan
        have := of_decide_eq_true h2
        omega
      · intro h
        exact absurd rfl h
    · rw [if_neg hle] at hm
      cases hdesc : getAllDescendantsF fuel st id with
      | none => rw [hdesc] at hm; cases hm
      | some l =>
        rw [hdesc, Option.map_some'] at hm
        have hm' := Option.some.inj hm
        have horder : st'.order =
            spliceInsert (st.order.filter fun i => !((id :: l).contains i))
              (jsIndexOf (st.order.filter fun i => !((id :: l).contains i))
                ((siblingsOf st item).getD (jsIndexOf (siblingsOf st item) id - 1).toNat ""))
              (id :: l) := by
          rw [← hm']
        refine ⟨by rw [← hm'], by rw [← hm'], ?_⟩
        have hcan : canMoveUp st id = true := by
          simp only [canMoveUp, hit]
          exact decide_eq_true (by omega)
        rw [hcan]
        simp only [true_iff]
        have hk : 0 < jsIndexOf (siblingsOf st item) id := by omega
        have hidmem : id ∈ siblingsOf st item := by
          by_contra hn
          rw [jsIndexOf_of_not_mem hn] at hk
          exact absurd hk (by decide)
        have hkeq : jsIndexOf (siblingsOf st item) id
            = ((siblingsOf st item).indexOf id : Int) := jsIndexOf_of_mem hidmem
        have hidxpos : 0 < (siblingsOf st item).indexOf id := by
          rw [hkeq] at hk
          exact_mod_cast hk
        have hidxlt : (siblingsOf st item).indexOf id < (siblingsOf st item).length :=
          List.indexOf_lt_length.2 hidmem
        have hprevlt : (siblingsOf st item).indexOf id - 1 < (siblingsOf st item).length := by
          omega
        have hgetD : (siblingsOf st item).getD (jsIndexOf (siblingsOf st item) id - 1).toNat ""
            = (siblingsOf st item).get ⟨(siblingsOf st item).indexOf id - 1, hprevlt⟩ := by
          rw [hkeq]
          have h2 : (((siblingsOf st item).indexOf id : Int) - 1).toNat
              = (siblingsOf st item).indexOf id - 1 := by omega
          rw [h2]
          exact getD_of_lt hprevlt ""
        rw [hgetD] at horder
        have hprevsib : (siblingsOf st item).get
            ⟨(siblingsOf st item).indexOf id - 1, hprevlt⟩ ∈ siblingsOf st item :=
          List.get_mem _ _ _
        obtain ⟨hprevord, s, hs, hspar, -⟩ := mem_siblingsOf.1 hprevsib
        have hidord : id ∈ st.order := (mem_siblingsOf.1 hidmem).1
        have hndsibs : (siblingsOf st item).Nodup :=
          List.Nodup.sublist (List.filter_sublist _) hnd
        have hgetid : (siblingsOf st item).get
            ⟨(siblingsOf st item).indexOf id, hidxlt⟩ = id := List.indexOf_get hidxlt
        have hprevne : (siblingsOf st item).get
            ⟨(siblingsOf st item).indexOf id - 1, hprevlt⟩ ≠ id := by
          intro h
          have h2 := hndsibs.get_inj_iff.1 (h.trans hgetid.symm)
          have h3 := Fin.val_eq_of_eq h2
          simp only at h3
          omega
        have hpair_orig : List.Sublist
            [(siblingsOf st item).get ⟨(siblingsOf st item).indexOf id - 1, hprevlt⟩, id]
            st.order := by
          have h1 := pair_sublist_of_lt (siblingsOf st item)
            ((siblingsOf st item).indexOf id - 1) ((siblingsOf st item).indexOf id)
            hprevlt hidxlt (by omega)
          rw [hgetid] at h1
          exact h1.trans (List.filter_sublist _)
        have hprevnotl : (siblingsOf st item).get
            ⟨(siblingsOf st item).indexOf id - 1, hprevlt⟩ ∉ l :=
          sibling_not_descendant hdesc hit hidord hs hspar
        have hprevnew : (siblingsOf st item).get
            ⟨(siblingsOf st item).indexOf id - 1, hprevlt⟩
            ∈ st.order.filter fun i => !((id :: l).contains i) := by
          rw [List.mem_filter]
          refine ⟨hprevord, not_contains_iff.2 ?_⟩
          intro hmm
          rcases List.mem_cons.1 hmm with h | h
          · exact hprevne h
          · exact hprevnotl h
        rw [jsIndexOf_of_mem hprevnew] at horder
        rw [horder]
        exact splice_before_ne hnd hprevne hpair_orig hprevnew

/-- `moveDown` characterized: it never touches the store or the selection,
and on a duplicate-free Order it changes the Order exactly when
`canMoveDown`. -/
theorem moveDown_result (st : WState) (id : String) (hnd : st.order.Nodup)
    (fuel : Nat) (st' : WState) (hm : moveDownF fuel st id = some st') :
    st'.items = st.items ∧ st'.selected = st.selected ∧
    (canMoveDown st id = true ↔ st'.order ≠ st.order) := by
  cases hit : st.items id with
  | none =>
    simp only [moveDownF, hit] at hm
    cases Option.some.inj hm
    refine ⟨rfl, rfl, ?_⟩
    simp [canMoveDown, hit]
  | some item =>
    simp only [moveDownF, hit] at hm
    by_cases hge : jsIndexOf (siblingsOf st item) id
        ≥ ((siblingsOf st item).length : Int) - 1
    · rw [if_pos hge] at hm
      cases Option.some.inj hm
      refine ⟨rfl, rfl, ?_⟩
      constructor
      · intro hcan
        have h2 : decide (jsIndexOf (siblingsOf st item) id
            < ((siblingsOf st item).length : Int) - 1) = true := by
          simpa [canMoveDown, hit] using hcan
        have := of_decide_eq_true h2
        omega
      · intro h
        exact absurd rfl h
    · rw [if_neg hge] at hm
      cases hdesc : getAllDescendantsF fuel st id with
      | none => rw [hdesc] at hm; cases hm
      | some l =>
        rw [hdesc, Option.some_bind] at hm
        cases hdesc2 : getAllDescendantsF fuel st
            ((siblingsOf st item).getD (jsIndexOf (siblingsOf st item) id + 1).toNat "") with
        | none => rw [hdesc2] at hm; cases hm
        | some l2 =>
          rw [hdesc2, Option.map_some'] at hm
          have hm' := Option.some.inj hm
          have horder : st'.order =
              spliceInsert (st.order.filter fun i => !((id :: l).contains i))
                (jsIndexOf (st.order.filter fun i => !((id :: l).contains i))
                    ((siblingsOf st item).getD
                      (jsIndexOf (siblingsOf st item) id + 1).toNat "")
                  + ((((siblingsOf st item).getD
                      (jsIndexOf (siblingsOf st item) id + 1).toNat "") :: l2).length : Int))
                (id :: l) := by
            rw [← hm']
          refine ⟨by rw [← hm'], by rw [← hm'], ?_⟩
          have hcan : canMoveDown st id = true := by
            simp only [canMoveDown, hit]
            exact decide_eq_true (by omega)
          rw [hcan]
          simp only [true_iff]
          by_cases hidmem : id ∈ siblingsOf st item
          · have hkeq : jsIndexOf (siblingsOf st item) id
                = ((siblingsOf st item).indexOf id : Int) := jsIndexOf_of_mem hidmem
            have hidxlt : (siblingsOf st item).indexOf id < (siblingsOf st item).length :=
              List.indexOf_lt_length.2 hidmem
            have hnextlt : (siblingsOf st item).indexOf id + 1
                < (siblingsOf st item).length := by
              rw [hkeq] at hge
              omega
            have hgetD : (siblingsOf st item).getD
                (jsIndexOf (siblingsOf st item) id + 1).toNat ""
                = (siblingsOf st item).get
                    ⟨(siblingsOf st item).indexOf id + 1, hnextlt⟩ := by
              rw [hkeq]
              have h2 : (((siblingsOf st item).indexOf id : Int) + 1).toNat
                  = (siblingsOf st item).indexOf id + 1 := by omega
              rw [h2]
              exact getD_of_lt hnextlt ""
            rw [hgetD] at horder
            have hnextsib : (siblingsOf st item).get
                ⟨(siblingsOf st item).indexOf id + 1, hnextlt⟩ ∈ siblingsOf st item :=
              List.get_mem _ _ _
            obtain ⟨hnextord, s, hs, hspar, -⟩ := mem_siblingsOf.1 hnextsib
            have hidord : id ∈ st.order := (mem_siblingsOf.1 hidmem).1
            have hndsibs : (siblingsOf st item).Nodup :=
              List.Nodup.sublist (List.filter_sublist _) hnd
            have hgetid : (siblingsOf st item).get
                ⟨(siblingsOf st item).indexOf id, hidxlt⟩ = id := List.indexOf_get hidxlt
            have hne : (siblingsOf st item).get
                ⟨(siblingsOf st item).indexOf id + 1, hnextlt⟩ ≠ id := by
              intro h
              have h2 := hndsibs.get_inj_iff.1 (h.trans hgetid.symm)
              have h3 := Fin.val_eq_of_eq h2
              simp only at h3
              omega
            have hpair_orig : List.Sublist
                [id, (siblingsOf st item).get
                  ⟨(siblingsOf st item).indexOf id + 1, hnextlt⟩] st.order := by
              have h1 := pair_sublist_of_lt (siblingsOf st item)
                ((siblingsOf st item).indexOf id) ((siblingsOf st item).indexOf id + 1)
                hidxlt hnextlt (by omega)
              rw [hgetid] at h1
              exact h1.trans (List.filter_sublist _)
            have hnotl : (siblingsOf st item).get
                ⟨(siblingsOf st item).indexOf id + 1, hnextlt⟩ ∉ l :=
              sibling_not_descendant hdesc hit hidord hs hspar
            have hnextnew : (siblingsOf st item).get
                ⟨(siblingsOf st item).indexOf id + 1, hnextlt⟩
                ∈ st.order.filter fun i => !((id :: l).contains i) := by
              rw [List.mem_filter]
              refine ⟨hnextord, not_contains_iff.2 ?_⟩
              intro hmm
              rcases List.mem_cons.1 hmm with h | h
              · exact hne h
              · exact hnotl h
            rw [jsIndexOf_of_mem hnextnew] at horder
            rw [horder]
            exact splice_after_ne hnd hne hpair_orig hnextnew (by simp)
          · have hidord : id ∉ st.order := fun hin => hidmem (self_mem_siblingsOf hit hin)
            have hidin : id ∈ st'.order := by
              rw [horder]
              exact mem_spliceInsert_of_mem (List.mem_cons_self _ _)
            intro heq
            rw [heq] at hidin
            exact hidord hidin

/-- When `canMoveUp` is false, `moveUp` returns without touching anything
(and needs no recursion). -/
theorem moveUpF_of_not_canMoveUp (st : WState) (id : String) (fuel : Nat)
    (h : canMoveUp st id = false) : moveUpF fuel st id = some st := by
  cases hit : st.items id with
  | none => simp [moveUpF, hit]
  | some item =>
    have hle : jsIndexOf (siblingsOf st item) id ≤ 0 := by
      simp only [canMoveUp, hit] at h
      have := of_decide_eq_false h
      omega
    simp only [moveUpF, hit, if_pos hle]

/-- When `canMoveDown` is false, `moveDown` returns without touching
anything (and needs no recursion). -/
theorem moveDownF_of_not_canMoveDown (st : WState) (id : String) (fuel : Nat)
    (h : canMoveDown st id = false) : moveDownF fuel st id = some st := by
  cases hit : st.items id with
  | none => simp [moveDownF, hit]
  | some item =>
    have hge : jsIndexOf (siblingsOf st item) id
        ≥ ((siblingsOf st item).length : Int) - 1 := by
      simp only [canMoveDown, hit] at h
      have := of_decide_eq_false h
      omega
    simp only [moveDownF, hit, if_pos hge]

/-- C7 (amended): on every state whose Order is duplicate-free, the
`canMoveUp`/`canMoveDown` predicates agree exactly with whether the
corresponding move changes Order (whenever the move's recursive descendant
computation terminates); both predicates are false for an id with no live
record; and whenever a predicate is false the corresponding move changes
nothing at all (Order, store and selection); the moves never touch the
store or the selection. -/
theorem canMove_iff_move_changes (st : WState) (id : String) (hnd : st.order.Nodup) :
    (st.items id = none → canMoveUp st id = false ∧ canMoveDown st id = false) ∧
    (canMoveUp st id = false → ∀ fuel, moveUpF fuel st id = some st) ∧
    (canMoveDown st id = false → ∀ fuel, moveDownF fuel st id = some st) ∧
    (∀ fuel st', moveUpF fuel st id = some st' →
      st'.items = st.items ∧ st'.selected = st.selected ∧
      (canMoveUp st id = true ↔ st'.order ≠ st.order)) ∧
    (∀ fuel st', moveDownF fuel st id = some st' →
      st'.items = st.items ∧ st'.selected = st.selected ∧
      (canMoveDown st id = true ↔ st'.order ≠ st.order)) := by
  refine ⟨?_, ?_, ?_, ?_, ?_⟩
  · intro h
    constructor <;> simp [canMoveUp, canMoveDown, h]
  · intro h fuel
    exact moveUpF_of_not_canMoveUp st id fuel h
  · intro h fuel
    exact moveDownF_of_not_canMoveDown st id fuel h
  · intro fuel st' hm
    exact moveUp_result st id hnd fuel st' hm
  · intro fuel st' hm
    exact moveDown_result st id hnd fuel st' hm

/-- C7 witness state: two live primary roots `A`, `B` in Order `[A, B]`. -/
def stMoveWit : WState :=
  { order := ["A", "B"],
    items := mkStore [mkItem "A" .primary none, mkItem "B" .primary none],
    selected := none }

/-- The state produced by `moveUp(B)` on the C7 witness state. -/
def stMoveWitRes : WState := (moveUpF 5 stMoveWit "B").getD stMoveWit

/-- C7 witness: on `stMoveWit` (duplicate-free Order), `moveUp(B)`
terminates, `canMoveUp(B)` is true, and by `canMove_iff_move_changes` the
move indeed changes Order. -/
theorem canMove_iff_move_changes_witness :
    stMoveWit.order.Nodup ∧
    moveUpF 5 stMoveWit "B" = some stMoveWitRes ∧
    canMoveUp stMoveWit "B" = true ∧
    stMoveWitRes.order ≠ stMoveWit.order := by
  have hnd : stMoveWit.order.Nodup := by decide
  have h1 : moveUpF 5 stMoveWit "B" = some stMoveWitRes := rfl
  have h := (canMove_iff_move_changes stMoveWit "B" hnd).2.2.2.1 5 stMoveWitRes h1
  exact ⟨hnd, h1, by decide, h.2.2.1 (by decide)⟩
